import Mathlib

/-!
Verification of the htree library: a collection of tools for working with
trees of HTML nodes.  The development shallowly embeds the Go source:

* `PTree`/`PForest` is a pure rose-tree view of `html.Node` trees, used for
  the read-only operations (`Find`, `Walk`, `FindAll`, `WriteText`/`Text`,
  and the indentation renderer).
* A heap model (`Heap`, `NodeRec`) with explicit `parent`/`firstChild`/
  `lastChild`/`prevSibling`/`nextSibling` pointer fields is used for `Prune`,
  whose contract is about pointer relinking and non-mutation of the input.

External collaborators (the HTML parser, `html.UnescapeString`,
`html.EscapeString`, `html.Render`) are taken as parameters, following the
specification's scope: this core consumes an already-parsed tree and the
entity-decoding primitives.
-/

namespace Htree

/-- The seven node kinds of `html.NodeType`. -/
inductive NodeType where
  | errorNode
  | textNode
  | documentNode
  | elementNode
  | commentNode
  | doctypeNode
  | rawNode
deriving DecidableEq

instance : Inhabited NodeType := ⟨NodeType.errorNode⟩

/-- Tag identifiers, mirroring the values of `atom.Atom` that the library
mentions.  `zeroAtom` stands for the zero `Atom` (an unknown tag). -/
inductive Atom where
  | zeroAtom
  | address | article | aside | blockquote | body
  | details | dialog | dd | div | dl | dt
  | fieldset | figcaption | figure | footer | form
  | h1 | h2 | h3 | h4 | h5 | h6 | head | header | hr | html
  | li | main | meta | nav | ol | p | pre
  | sectionAtom | summary | table | ul
  | iframe | noembed | noframes | noscript | plaintext | script | style | xmp
  | area | base | br | col | embed
  | img | input | keygen | link
  | param | source | track | wbr
  | a | span | td
deriving DecidableEq

instance : Inhabited Atom := ⟨Atom.zeroAtom⟩

/-- One `html.Attribute`: namespace, key and value. -/
structure Attribute where
  nspace : String
  key : String
  val : String
deriving DecidableEq, Inhabited

/-- The scalar (non-pointer) fields of an `html.Node`. -/
structure Fields where
  type : NodeType
  dataAtom : Atom
  data : String
  nspace : String
  attr : List Attribute
deriving DecidableEq, Inhabited

mutual
/-- Pure rose-tree view of an `html.Node` tree: the node's scalar fields
together with its child list (the chain `FirstChild`, `NextSibling`, ...,
`LastChild`). -/
inductive PTree where
  | mk : Fields → PForest → PTree

/-- A list of sibling subtrees. -/
inductive PForest where
  | nil : PForest
  | cons : PTree → PForest → PForest
end

/-- The scalar fields of the root node. -/
def PTree.fields : PTree → Fields
  | .mk f _ => f

/-- The children of the root node. -/
def PTree.children : PTree → PForest
  | .mk _ cs => cs

mutual
/-- The data-model invariant that a Text-kind node never has children. -/
def textLeaves : PTree → Bool
  | .mk f cs =>
    (if f.type = NodeType.textNode then (match cs with | .nil => true | .cons _ _ => false) else true)
      && textLeavesF cs

/-- `textLeaves` on every tree of a forest. -/
def textLeavesF : PForest → Bool
  | .nil => true
  | .cons t ts => textLeaves t && textLeavesF ts
end

mutual
/-- Preorder depth-first listing of all nodes of a tree: the node itself,
then the nodes of each child subtree, left to right. -/
def preorderT : PTree → List PTree
  | .mk f cs => .mk f cs :: preorderF cs

/-- Preorder listing of all nodes of a forest. -/
def preorderF : PForest → List PTree
  | .nil => []
  | .cons t ts => preorderT t ++ preorderF ts
end

mutual
/-- The number of non-Text nodes reachable by recursively expanding a tree. -/
def countNonText : PTree → Nat
  | .mk f cs => (if f.type = NodeType.textNode then 0 else 1) + countNonTextF cs

/-- The number of non-Text nodes of a forest. -/
def countNonTextF : PForest → Nat
  | .nil => 0
  | .cons t ts => countNonText t + countNonTextF ts
end

mutual
/-- Embedding of `walk` (htree.go): a Text-kind node yields nothing and is
not descended into; any other node is yielded and then its children are
walked.  The list is the sequence of nodes passed to `yield` by `Walk`. -/
def walkT : PTree → List PTree
  | .mk f cs =>
    if f.type = NodeType.textNode then []
    else .mk f cs :: walkF cs

/-- `walk` over the children chain of a node. -/
def walkF : PForest → List PTree
  | .nil => []
  | .cons t ts => walkT t ++ walkF ts
end

mutual
/-- Embedding of `Find` (htree.go): test the node itself; if it matches,
return it; if it is a Text node, return `none` without looking at children;
otherwise search the children left to right, returning the first hit. -/
def findT (pred : PTree → Bool) : PTree → Option PTree
  | .mk f cs =>
    if pred (.mk f cs) then some (.mk f cs)
    else if f.type = NodeType.textNode then none
    else findF pred cs

/-- The `Find` child loop: first non-`none` recursive result wins. -/
def findF (pred : PTree → Bool) : PForest → Option PTree
  | .nil => none
  | .cons t ts =>
    match findT pred t with
    | some found => some found
    | none => findF pred ts
end

mutual
/-- Embedding of `findAll` (htree.go): if the node passes `pred` it is
yielded, and then — as the code is written — `findAllChildren` is invoked
on the node unconditionally. -/
def findAllT (pred : PTree → Bool) (t : PTree) : List PTree :=
  (if pred t then [t] else []) ++ findAllChildrenT pred t

/-- Embedding of `findAllChildren` (htree.go): a Text-kind node is not
descended into; otherwise each child is processed with `findAll`. -/
def findAllChildrenT (pred : PTree → Bool) : PTree → List PTree
  | .mk f cs =>
    if f.type = NodeType.textNode then []
    else findAllF pred cs

/-- The `findAllChildren` loop over a children chain. -/
def findAllF (pred : PTree → Bool) : PForest → List PTree
  | .nil => []
  | .cons t ts => findAllT pred t ++ findAllF pred ts
end

mutual
/-- Embedding of `WriteText` (htree.go), with the entity decoder
`html.UnescapeString` passed in as the external collaborator `unesc`.
A Text node writes its decoded data (and then, as in the source, falls
through to the child loop); a `<br>` element writes exactly one newline and
returns; `<script>`/`<style>` elements return without writing; every other
node just writes its children. -/
def writeTextT (unesc : String → String) : PTree → String
  | .mk f cs =>
    if f.type = NodeType.textNode then unesc f.data ++ writeTextF unesc cs
    else if f.type = NodeType.elementNode then
      if f.dataAtom = Atom.br then "\n"
      else if f.dataAtom = Atom.script ∨ f.dataAtom = Atom.style then ""
      else writeTextF unesc cs
    else writeTextF unesc cs

/-- The `WriteText` child loop: children contribute left to right. -/
def writeTextF (unesc : String → String) : PForest → String
  | .nil => ""
  | .cons t ts => writeTextT unesc t ++ writeTextF unesc ts
end

/-- Embedding of `Text` (htree.go): accumulate the `WriteText` stream into a
string (a `bytes.Buffer` never fails, so no error can arise). -/
def textOf (unesc : String → String) (t : PTree) : String :=
  writeTextT unesc t

/-- Whether a node is Text-kind. -/
def isText (t : PTree) : Bool :=
  t.fields.type == NodeType.textNode

/-- Whether a node is Element-kind. -/
def isElement (t : PTree) : Bool :=
  t.fields.type == NodeType.elementNode

mutual
/-- Pure counterpart of `Prune` (htree.go) on the rose-tree view: `none`
when the predicate holds at the root, otherwise the root's fields with the
recursively pruned surviving children in original order. -/
def pruneT (pred : Fields → Bool) : PTree → Option PTree
  | .mk f cs =>
    if pred f then none
    else some (.mk f (pruneF pred cs))

/-- Pruning a forest: children whose pruning returns `none` disappear, the
others are kept in order. -/
def pruneF (pred : Fields → Bool) : PForest → PForest
  | .nil => .nil
  | .cons t ts =>
    match pruneT pred t with
    | none => pruneF pred ts
    | some t2 => .cons t2 (pruneF pred ts)
end

/-- The renderer's block-tag set (indent.go): tags that force a line break
before and after their content. -/
def blockElements : List Atom :=
  [.address, .article, .aside, .blockquote, .body,
   .details, .dialog, .dd, .div, .dl, .dt,
   .fieldset, .figcaption, .figure, .footer, .form,
   .h1, .h2, .h3, .h4, .h5, .h6, .head, .header, .hr, .html,
   .li, .main, .meta, .nav, .ol, .p, .pre,
   .sectionAtom, .summary, .table, .ul]

/-- The renderer's literal-content-tag set (indent.go): tags whose children
are emitted verbatim. -/
def literalChildElements : List Atom :=
  [.iframe, .noembed, .noframes, .noscript, .plaintext, .script, .style, .xmp]

/-- The renderer's void-tag set (indent.go): tags with no children and no
closing tag. -/
def voidElements : List Atom :=
  [.area, .base, .br, .col, .embed, .hr,
   .img, .input, .keygen, .link, .meta,
   .param, .source, .track, .wbr]

/-! Helper lemmas about `textLeaves`. -/

theorem textLeaves_forest {f : Fields} {cs : PForest}
    (h : textLeaves (.mk f cs) = true) : textLeavesF cs = true := by
  simp only [textLeaves, Bool.and_eq_true] at h
  exact h.2

theorem textLeaves_nil {f : Fields} {cs : PForest}
    (h : textLeaves (.mk f cs) = true) (ht : f.type = NodeType.textNode) :
    cs = PForest.nil := by
  cases cs with
  | nil => rfl
  | cons a b => simp [textLeaves, ht] at h

theorem textLeavesF_head {t : PTree} {ts : PForest}
    (h : textLeavesF (.cons t ts) = true) : textLeaves t = true := by
  simp only [textLeavesF, Bool.and_eq_true] at h
  exact h.1

theorem textLeavesF_tail {t : PTree} {ts : PForest}
    (h : textLeavesF (.cons t ts) = true) : textLeavesF ts = true := by
  simp only [textLeavesF, Bool.and_eq_true] at h
  exact h.2

/-! `walk` agrees with filtering the Text nodes out of the preorder listing,
on trees where Text nodes are leaves. -/

mutual
theorem walk_filter (t : PTree) (h : textLeaves t = true) :
    walkT t = (preorderT t).filter (fun n => !isText n) := by
  cases t with
  | mk f cs =>
    by_cases ht : f.type = NodeType.textNode
    · have hnil := textLeaves_nil h ht
      subst hnil
      simp [walkT, preorderT, preorderF, ht, isText, PTree.fields]
    · simp [walkT, preorderT, ht, isText, PTree.fields,
        walkF_filter cs (textLeaves_forest h)]

theorem walkF_filter (ts : PForest) (h : textLeavesF ts = true) :
    walkF ts = (preorderF ts).filter (fun n => !isText n) := by
  cases ts with
  | nil => simp [walkF, preorderF]
  | cons t ts =>
    simp [walkF, preorderF, List.filter_append,
      walk_filter t (textLeavesF_head h), walkF_filter ts (textLeavesF_tail h)]
end

/-! The non-Text node count agrees with the length of the filtered preorder
listing (on any tree). -/

mutual
theorem count_filter (t : PTree) :
    countNonText t = ((preorderT t).filter (fun n => !isText n)).length := by
  cases t with
  | mk f cs =>
    by_cases ht : f.type = NodeType.textNode <;>
      simp [countNonText, preorderT, List.filter_cons, isText, PTree.fields, ht,
        countF_filter cs] <;> omega

theorem countF_filter (ts : PForest) :
    countNonTextF ts = ((preorderF ts).filter (fun n => !isText n)).length := by
  cases ts with
  | nil => simp [countNonTextF, preorderF]
  | cons t ts =>
    simp [countNonTextF, preorderF, List.filter_append, count_filter t,
      countF_filter ts]
end

/-! `Find` agrees with `find?` over the preorder listing, on trees where
Text nodes are leaves. -/

mutual
theorem find_eq (pred : PTree → Bool) (t : PTree) (h : textLeaves t = true) :
    findT pred t = (preorderT t).find? pred := by
  cases t with
  | mk f cs =>
    by_cases hp : pred (.mk f cs)
    · simp [findT, preorderT, hp, List.find?_cons]
    · by_cases ht : f.type = NodeType.textNode
      · have hnil := textLeaves_nil h ht
        subst hnil
        simp [findT, preorderT, preorderF, hp, ht, List.find?_cons]
      · simp [findT, preorderT, hp, ht, List.find?_cons,
          find_forest_eq pred cs (textLeaves_forest h)]

theorem find_forest_eq (pred : PTree → Bool) (ts : PForest) (h : textLeavesF ts = true) :
    findF pred ts = (preorderF ts).find? pred := by
  cases ts with
  | nil => simp [findF, preorderF]
  | cons t ts =>
    rw [preorderF, List.find?_append, findF,
      ← find_eq pred t (textLeavesF_head h), ← find_forest_eq pred ts (textLeavesF_tail h)]
    cases findT pred t <;> simp [Option.or]
end

/-! Small concrete trees used as inputs of counterexamples and witnesses. -/

/-- A lone Text node with data `"x"`. -/
def exText : PTree := .mk ⟨NodeType.textNode, Atom.zeroAtom, "x", "", []⟩ .nil

/-- An element with data `"inner"` and no children. -/
def exInner : PTree := .mk ⟨NodeType.elementNode, Atom.div, "inner", "", []⟩ .nil

/-- An element with data `"outer"` whose only child is `exInner`. -/
def exOuter : PTree :=
  .mk ⟨NodeType.elementNode, Atom.div, "outer", "", []⟩ (.cons exInner .nil)

/-- The parse tree of `<div>x<br>y</div>`: a Document containing
`html > (head, body)`, the body containing `div > (text "x", br, text "y")`. -/
def exBrDoc : PTree :=
  .mk ⟨NodeType.documentNode, Atom.zeroAtom, "", "", []⟩
    (.cons
      (.mk ⟨NodeType.elementNode, Atom.html, "html", "", []⟩
        (.cons (.mk ⟨NodeType.elementNode, Atom.head, "head", "", []⟩ .nil)
          (.cons
            (.mk ⟨NodeType.elementNode, Atom.body, "body", "", []⟩
              (.cons
                (.mk ⟨NodeType.elementNode, Atom.div, "div", "", []⟩
                  (.cons (.mk ⟨NodeType.textNode, Atom.zeroAtom, "x", "", []⟩ .nil)
                    (.cons (.mk ⟨NodeType.elementNode, Atom.br, "br", "", []⟩ .nil)
                      (.cons (.mk ⟨NodeType.textNode, Atom.zeroAtom, "y", "", []⟩ .nil)
                        .nil))))
                .nil))
            .nil)))
      .nil)

/-- C1, counterexample: a Text-kind root is visited by `Walk` but, contrary
to the claim, it is not yielded — `walk` returns before calling `yield` on a
Text node, so the produced sequence is empty. -/
theorem c1_counterexample :
    walkT exText = [] ∧ exText.fields.type = NodeType.textNode := ⟨rfl, rfl⟩

/-- C1 (amended): `Walk` yields a node and then recurses into its children
only when the node is not Text-kind; a Text-kind node — the root included —
is neither yielded nor descended into.  Hence on trees whose Text nodes are
leaves the yielded sequence is the preorder listing with Text nodes removed. -/
theorem c1_walk_amended (t : PTree) (h : textLeaves t = true) :
    walkT t = (preorderT t).filter (fun n => !isText n)
    ∧ (isText t = true → walkT t = [])
    ∧ (isText t = false → walkT t = t :: walkF t.children) := by
  refine ⟨walk_filter t h, ?_, ?_⟩ <;> cases t with
  | mk f cs =>
    intro ht
    simp only [isText, PTree.fields] at ht
    simp [walkT, PTree.children, beq_iff_eq] at ht ⊢
    simp [ht]

/-- C1 amended, witness at the concrete tree `exOuter`. -/
theorem c1_walk_amended_witness :
    walkT exOuter = (preorderT exOuter).filter (fun n => !isText n) :=
  (c1_walk_amended exOuter rfl).1

/-- C2, counterexample: the tags `hr` and `meta` belong to both the block
set and the void set, so the three classification sets are not pairwise
disjoint. -/
theorem c2_counterexample :
    Atom.hr ∈ blockElements ∧ Atom.hr ∈ voidElements
    ∧ Atom.meta ∈ blockElements ∧ Atom.meta ∈ voidElements := by
  refine ⟨?_, ?_, ?_, ?_⟩ <;> decide

/-- C2 (amended): the literal-content set is disjoint from the block set and
from the void set, and the only tags belonging to more than one set are `hr`
and `meta`, which are in both the block set and the void set. -/
theorem c2_amended (x : Atom) :
    (x ∈ blockElements → x ∈ voidElements → x = Atom.hr ∨ x = Atom.meta)
    ∧ (x ∈ literalChildElements → ¬ x ∈ blockElements)
    ∧ (x ∈ literalChildElements → ¬ x ∈ voidElements) := by
  cases x <;> exact ⟨by decide, by decide, by decide⟩

/-- C2 amended, witness: `script` is a literal-content tag and is in neither
of the other two sets. -/
theorem c2_amended_witness :
    ¬ Atom.script ∈ blockElements ∧ ¬ Atom.script ∈ voidElements :=
  ⟨(c2_amended Atom.script).2.1 (by decide), (c2_amended Atom.script).2.2 (by decide)⟩

/-- C3: on trees whose Text nodes are leaves, `Find` evaluates the predicate
on the root first (the root heads the preorder listing), returns the first
node of the preorder depth-first listing satisfying the predicate, returns
`none` (never an error) exactly when no visited node satisfies it, and a
Text-kind root's children are never examined. -/
theorem c3_find (pred : PTree → Bool) (t : PTree) (h : textLeaves t = true) :
    findT pred t = (preorderT t).find? pred
    ∧ (preorderT t).head? = some t
    ∧ (∀ r, findT pred t = some r → pred r = true)
    ∧ (findT pred t = none → ∀ n ∈ preorderT t, pred n = false)
    ∧ (t.fields.type = NodeType.textNode → findT pred t = if pred t then some t else none) := by
  have he := find_eq pred t h
  refine ⟨he, ?_, ?_, ?_, ?_⟩
  · cases t with
    | mk f cs => simp [preorderT]
  · intro r hr
    exact List.find?_some (he ▸ hr)
  · intro hn n hmem
    have := List.find?_eq_none.mp (he ▸ hn) n hmem
    simpa using this
  · intro ht
    cases t with
    | mk f cs =>
      simp only [PTree.fields] at ht
      by_cases hp : pred (.mk f cs) <;> simp [findT, hp, ht]

/-- C3, witness at the concrete tree `exOuter` with a predicate matching the
inner element. -/
theorem c3_find_witness :
    findT (fun n => n.fields.data == "inner") exOuter
      = (preorderT exOuter).find? (fun n => n.fields.data == "inner") :=
  (c3_find (fun n => n.fields.data == "inner") exOuter rfl).1

/-- C4: evaluation of `findAll` at a concrete input exhibiting the bug.  With
a predicate satisfied by every Element node, on the tree whose root `exOuter`
has the single child `exInner`, the code yields both the root and its child:
having yielded the matching root, it still calls `findAllChildren` on it
unconditionally, so the subtree of a match is descended into, contrary to the
doc comment on `FindAll` ("skip walking the node's subtree"). -/
theorem c4_eval :
    (findAllT isElement exOuter).map (fun n => n.fields.data) = ["outer", "inner"]
    ∧ exOuter.children = PForest.cons exInner PForest.nil
    ∧ isElement exOuter = true ∧ isElement exInner = true := by
  refine ⟨?_, rfl, rfl, rfl⟩
  simp [findAllT, findAllChildrenT, findAllF, exOuter, exInner, isElement, PTree.fields]

/-- C7: `WriteText` streams a Text node's decoded data; a `<br>` element
contributes exactly one newline and nothing from descendants; `<script>` and
`<style>` contribute nothing; every other node contributes only its
children's stream; and `Text` on the parse of `<div>x<br>y</div>` yields
`"x\ny"` (given that the decoder is the identity on the entity-free strings
`"x"` and `"y"`). -/
theorem c7_write_text (unesc : String → String) (t : PTree) (h : textLeaves t = true) :
    (t.fields.type = NodeType.textNode → writeTextT unesc t = unesc t.fields.data)
    ∧ (t.fields.type = NodeType.elementNode → t.fields.dataAtom = Atom.br →
        writeTextT unesc t = "\n")
    ∧ (t.fields.type = NodeType.elementNode →
        t.fields.dataAtom = Atom.script ∨ t.fields.dataAtom = Atom.style →
        writeTextT unesc t = "")
    ∧ (t.fields.type = NodeType.elementNode → t.fields.dataAtom ≠ Atom.br →
        ¬(t.fields.dataAtom = Atom.script ∨ t.fields.dataAtom = Atom.style) →
        writeTextT unesc t = writeTextF unesc t.children)
    ∧ (t.fields.type ≠ NodeType.textNode → t.fields.type ≠ NodeType.elementNode →
        writeTextT unesc t = writeTextF unesc t.children)
    ∧ (unesc "x" = "x" → unesc "y" = "y" → textOf unesc exBrDoc = "x\ny") := by
  cases t with
  | mk f cs =>
    simp only [PTree.fields, PTree.children]
    refine ⟨?_, ?_, ?_, ?_, ?_, ?_⟩
    · intro ht
      have hnil := textLeaves_nil h ht
      subst hnil
      simp [writeTextT, writeTextF, ht]
    · intro ht hbr
      have : f.type ≠ NodeType.textNode := by simp [ht]
      simp [writeTextT, this, ht, hbr]
    · intro ht hss
      have hnt : f.type ≠ NodeType.textNode := by simp [ht]
      have hbr : f.dataAtom ≠ Atom.br := by
        rcases hss with hs | hs <;> simp [hs]
      simp [writeTextT, hnt, ht, hbr, hss]
    · intro ht hbr hss
      have hnt : f.type ≠ NodeType.textNode := by simp [ht]
      simp [writeTextT, hnt, ht, hbr, hss]
    · intro h1 h2
      simp [writeTextT, h1, h2]
    · intro hx hy
      simp [textOf, exBrDoc, writeTextT, writeTextF, hx, hy]

/-- C7, witness: with the identity decoder, `Text` of the parse of
`<div>x<br>y</div>` is `"x\ny"`. -/
theorem c7_write_text_witness : textOf (fun s => s) exBrDoc = "x\ny" :=
  (c7_write_text (fun s => s) exText rfl).2.2.2.2.2 rfl rfl

/-- C9: on trees whose Text nodes are leaves (the data-model invariant), the
number of nodes yielded by `Walk` equals the number of non-Text nodes
reachable by recursively expanding the tree. -/
theorem c9_walk_count (t : PTree) (h : textLeaves t = true) :
    (walkT t).length = countNonText t := by
  rw [walk_filter t h, count_filter t]

/-- C9, witness at the concrete tree `exBrDoc` (8 nodes, 6 of them
non-Text). -/
theorem c9_walk_count_witness :
    (walkT exBrDoc).length = countNonText exBrDoc ∧ countNonText exBrDoc = 6 :=
  ⟨c9_walk_count exBrDoc rfl, by simp [countNonText, countNonTextF, exBrDoc]⟩

/-- C10: `findAll` tests Text-kind nodes too, and a matching Text node is
yielded while its subtree is not descended into — whereas `walk` yields
nothing at all for a Text node. -/
theorem c10_findall_text (pred : PTree → Bool) (t : PTree)
    (h : t.fields.type = NodeType.textNode) :
    findAllT pred t = (if pred t then [t] else []) ∧ walkT t = [] := by
  cases t with
  | mk f cs =>
    simp only [PTree.fields] at h
    constructor
    · simp [findAllT, findAllChildrenT, h]
    · simp [walkT, h]

/-- C10, witness: on a lone Text node matching the predicate, `FindAll`
yields the node while `Walk` yields nothing. -/
theorem c10_findall_text_witness :
    findAllT (fun n => n.fields.data == "x") exText
      = (if (fun n => n.fields.data == "x") exText then [exText] else [])
    ∧ walkT exText = [] :=
  c10_findall_text (fun n => n.fields.data == "x") exText rfl

/-! The indentation renderer (indent.go).  The output sink is modelled as an
accumulated list of characters; `bolwriter` carries the accumulated output
together with the beginning-of-line flag.  `html.Render` (used for Text,
Doctype and Comment nodes, and for non-Text children of literal-content
elements) and `html.EscapeString` are external collaborators, passed in as
the parameters `render` and `escape`. -/

/-- The `bolwriter` state: accumulated output and beginning-of-line flag. -/
structure BW where
  out : List Char
  bol : Bool

/-- `bolwriter.Write`: append the bytes; the flag ends up recording whether
the last written byte was a newline (unchanged when nothing is written). -/
def bwWrite (st : BW) (s : List Char) : BW :=
  ⟨st.out ++ s,
    match s.getLast? with
    | none => st.bol
    | some c => c == '\n'⟩

/-- `bolwriter.ensureNewline`: write a newline unless already at the
beginning of a line. -/
def ensureNewline (st : BW) : BW :=
  if st.bol then st else ⟨st.out ++ ['\n'], true⟩

/-- The attribute loop of the Element case: a space and the key, then
`="` + escaped value + `"` only when the value is non-empty. -/
def writeAttrs (escape : String → List Char) (st : BW) : List Attribute → BW
  | [] => st
  | attr1 :: rest =>
    let st1 := bwWrite st (' ' :: attr1.key.data)
    let st2 :=
      if attr1.val = "" then st1
      else bwWrite st1 ('=' :: '"' :: (escape attr1.val ++ ['"']))
    writeAttrs escape st2 rest

/-- The child loop of a literal-content element: Text children contribute
their raw data verbatim, any other child goes through the external
full-fidelity renderer. -/
def literalForest (render : PTree → List Char) (st : BW) : PForest → BW
  | .nil => st
  | .cons c cs =>
    let st1 :=
      if c.fields.type = NodeType.textNode then bwWrite st c.fields.data.data
      else bwWrite st (render c)
    literalForest render st1 cs

mutual
/-- Embedding of `indent` (indent.go): per-kind rendering with two spaces of
indentation per level and beginning-of-line bookkeeping.  `none` models the
error return (an Error-kind node cannot be rendered). -/
def indentNode (render : PTree → List Char) (escape : String → List Char)
    (t : PTree) (level : Nat) (st : BW) : Option BW :=
  match t with
  | .mk f cs =>
    let pad := List.replicate (2 * level) ' '
    match f.type with
    | NodeType.errorNode => none
    | NodeType.textNode =>
      let st1 := if st.bol then bwWrite st pad else st
      some (bwWrite st1 (render (.mk f cs)))
    | NodeType.doctypeNode => some (ensureNewline (bwWrite st (render (.mk f cs))))
    | NodeType.documentNode => indentForest render escape cs level st
    | NodeType.elementNode =>
      let isBlock := blockElements.contains f.dataAtom
      let st1 := if isBlock then ensureNewline st else st
      let st2 := if st1.bol then bwWrite st1 pad else st1
      let st3 := bwWrite st2 ('<' :: f.data.data)
      let st4 := writeAttrs escape st3 f.attr
      let st5 := bwWrite st4 ['>']
      let st6 := if isBlock then bwWrite st5 ['\n'] else st5
      if voidElements.contains f.dataAtom then some st6
      else
        match
          (if literalChildElements.contains f.dataAtom then
            some (literalForest render st6 cs)
          else indentForest render escape cs (level + 1) st6) with
        | none => none
        | some st7 =>
          let st8 := if isBlock then bwWrite (ensureNewline st7) pad else st7
          let st9 := if st8.bol then bwWrite st8 pad else st8
          some (bwWrite st9 ('<' :: '/' :: (f.data.data ++ ['>'])))
    | NodeType.commentNode =>
      let st1 := if st.bol then bwWrite st pad else st
      some (bwWrite st1 (render (.mk f cs)))
    | NodeType.rawNode => some (bwWrite st f.data.data)

/-- The Document/Element child loop of `indent`: render each child in turn,
aborting on the first error. -/
def indentForest (render : PTree → List Char) (escape : String → List Char)
    (ts : PForest) (level : Nat) (st : BW) : Option BW :=
  match ts with
  | .nil => some st
  | .cons c cs =>
    match indentNode render escape c level st with
    | none => none
    | some st1 => indentForest render escape cs level st1
end

/-- Embedding of `indentHelper` (indent.go): run the recursion from a fresh
beginning-of-line state; when `newline` is requested and the stream is not
at beginning of line, append one newline. -/
def indentHelperF (render : PTree → List Char) (escape : String → List Char)
    (t : PTree) (level : Nat) (newline : Bool) : Option (List Char) :=
  match indentNode render escape t level ⟨[], true⟩ with
  | none => none
  | some st => if !newline || st.bol then some st.out else some (st.out ++ ['\n'])

/-- Embedding of `Indent`. -/
def indentF (render : PTree → List Char) (escape : String → List Char)
    (t : PTree) (level : Nat) : Option (List Char) :=
  indentHelperF render escape t level false

/-- Embedding of `Indentln`. -/
def indentlnF (render : PTree → List Char) (escape : String → List Char)
    (t : PTree) (level : Nat) : Option (List Char) :=
  indentHelperF render escape t level true

/-- The `bolwriter` invariant: the flag holds exactly when nothing has been
written yet or the last written byte is a newline. -/
def BolOk (st : BW) : Prop :=
  st.bol = true ↔ (st.out = [] ∨ st.out.getLast? = some '\n')

theorem bolOk_init : BolOk ⟨[], true⟩ := by
  simp [BolOk]

theorem bolOk_bwWrite {st : BW} (s : List Char) (h : BolOk st) : BolOk (bwWrite st s) := by
  cases hs : s.getLast? with
  | none =>
    have : s = [] := by
      cases s with
      | nil => rfl
      | cons c cs => simp [List.getLast?_cons] at hs
    subst this
    simpa [BolOk, bwWrite] using h
  | some c =>
    have hne : s ≠ [] := by
      intro hcon
      subst hcon
      simp at hs
    constructor
    · intro hb
      simp only [bwWrite, hs] at hb ⊢
      right
      rw [List.getLast?_append, hs]
      simp only [Option.or_some]
      simpa using hb
    · intro hor
      simp only [bwWrite, hs] at hor ⊢
      rcases hor with hnil | hlast
      · exact absurd (List.append_eq_nil.mp hnil).2 hne
      · rw [List.getLast?_append, hs] at hlast
        simp only [Option.or_some, Option.some_inj] at hlast
        simpa using hlast

theorem bolOk_ensureNewline {st : BW} (h : BolOk st) : BolOk (ensureNewline st) := by
  by_cases hb : st.bol = true
  · simpa [ensureNewline, hb] using h
  · simp only [ensureNewline, hb]
    rw [if_neg (by simpa using hb)]
    constructor
    · intro _
      right
      rw [List.getLast?_append]
      simp
    · intro _
      rfl

theorem bolOk_writeAttrs (escape : String → List Char) (attrs : List Attribute)
    {st : BW} (h : BolOk st) : BolOk (writeAttrs escape st attrs) := by
  induction attrs generalizing st with
  | nil => simpa [writeAttrs] using h
  | cons attr1 rest ih =>
    simp only [writeAttrs]
    apply ih
    by_cases hv : attr1.val = "" <;>
      simp [hv, bolOk_bwWrite, bolOk_bwWrite _ h]

theorem bolOk_literalForest (render : PTree → List Char) (ts : PForest)
    {st : BW} (h : BolOk st) : BolOk (literalForest render st ts) := by
  cases ts with
  | nil => simpa [literalForest] using h
  | cons c cs =>
    simp only [literalForest]
    apply bolOk_literalForest render cs
    by_cases hc : c.fields.type = NodeType.textNode <;>
      simp [hc, bolOk_bwWrite _ h]

mutual
theorem bolOk_indentNode (render : PTree → List Char) (escape : String → List Char)
    (t : PTree) (level : Nat) (st st' : BW) (h : BolOk st)
    (heq : indentNode render escape t level st = some st') : BolOk st' := by
  cases t with
  | mk f cs =>
    cases hft : f.type <;> simp only [indentNode, hft] at heq
    case errorNode => cases heq
    case textNode =>
      cases heq
      apply bolOk_bwWrite
      by_cases hb : st.bol = true <;> simp [hb, bolOk_bwWrite _ h, h]
    case documentNode =>
      exact bolOk_indentForest render escape cs level st st' h heq
    case elementNode =>
      set isBlock := blockElements.contains f.dataAtom with hib
      have h1 : BolOk (if isBlock then ensureNewline st else st) := by
        by_cases hb : isBlock <;> simp [hb, bolOk_ensureNewline h, h]
      set st1 := if isBlock then ensureNewline st else st
      have h2 : BolOk (if st1.bol then bwWrite st1 (List.replicate (2 * level) ' ') else st1) := by
        by_cases hb : st1.bol <;> simp [hb, bolOk_bwWrite _ h1, h1]
      set st2 := if st1.bol then bwWrite st1 (List.replicate (2 * level) ' ') else st1
      have h3 := bolOk_bwWrite ('<' :: f.data.data) h2
      have h4 := bolOk_writeAttrs escape f.attr h3
      have h5 := bolOk_bwWrite ['>'] h4
      set st5 := bwWrite (writeAttrs escape (bwWrite st2 ('<' :: f.data.data)) f.attr) ['>']
      have h6 : BolOk (if isBlock then bwWrite st5 ['\n'] else st5) := by
        by_cases hb : isBlock <;> simp [hb, bolOk_bwWrite _ h5, h5]
      set st6 := if isBlock then bwWrite st5 ['\n'] else st5
      by_cases hv : voidElements.contains f.dataAtom
      · rw [if_pos hv] at heq
        have hst := Option.some.inj heq
        subst hst
        exact h6
      · rw [if_neg hv] at heq
        by_cases hl : literalChildElements.contains f.dataAtom
        · rw [if_pos hl] at heq
          simp only [Option.some.injEq] at heq
          have h7 := bolOk_literalForest render cs h6
          subst heq
          apply bolOk_bwWrite
          by_cases hb8 : isBlock
          · simp only [hb8, if_pos]
            by_cases hb9 : (bwWrite (ensureNewline (literalForest render st6 cs)) (List.replicate (2 * level) ' ')).bol <;>
              simp [hb9, bolOk_bwWrite _ (bolOk_ensureNewline h7), bolOk_bwWrite]
          · simp only [hb8, if_neg, ite_false]
            by_cases hb9 : (literalForest render st6 cs).bol <;>
              simp [hb9, bolOk_bwWrite _ h7, h7]
        · rw [if_neg hl] at heq
          cases hrec : indentForest render escape cs (level + 1) st6 with
          | none => rw [hrec] at heq; cases heq
          | some st7 =>
            rw [hrec] at heq
            simp only [Option.some.injEq] at heq
            have h7 := bolOk_indentForest render escape cs (level + 1) st6 st7 h6 hrec
            subst heq
            apply bolOk_bwWrite
            by_cases hb8 : isBlock
            · simp only [hb8, if_pos]
              by_cases hb9 : (bwWrite (ensureNewline st7) (List.replicate (2 * level) ' ')).bol <;>
                simp [hb9, bolOk_bwWrite _ (bolOk_ensureNewline h7), bolOk_bwWrite]
            · simp only [hb8, if_neg, ite_false]
              by_cases hb9 : st7.bol <;> simp [hb9, bolOk_bwWrite _ h7, h7]
    case doctypeNode =>
      cases heq
      exact bolOk_ensureNewline (bolOk_bwWrite _ h)
    case commentNode =>
      cases heq
      apply bolOk_bwWrite
      by_cases hb : st.bol = true <;> simp [hb, bolOk_bwWrite _ h, h]
    case rawNode =>
      cases heq
      exact bolOk_bwWrite _ h

theorem bolOk_indentForest (render : PTree → List Char) (escape : String → List Char)
    (ts : PForest) (level : Nat) (st st' : BW) (h : BolOk st)
    (heq : indentForest render escape ts level st = some st') : BolOk st' := by
  cases ts with
  | nil =>
    simp only [indentForest, Option.some.injEq] at heq
    subst heq
    exact h
  | cons c cs =>
    simp only [indentForest] at heq
    cases hc : indentNode render escape c level st with
    | none => rw [hc] at heq; cases heq
    | some st1 =>
      rw [hc] at heq
      exact bolOk_indentForest render escape cs level st1 st' (bolOk_indentNode render escape c level st st1 h hc) heq
end

/-- A Document node with no children: rendering it succeeds and writes
nothing. -/
def exEmptyDoc : PTree := .mk ⟨NodeType.documentNode, Atom.zeroAtom, "", "", []⟩ .nil

/-- C8, counterexample: on a childless Document node the renderer succeeds
with an empty stream; the stream has no last byte, yet `Indentln` appends
nothing — so under the claim's reading ("one newline is appended iff the
last emitted byte is not a newline") the appended newline is missing, and
its conclusion that Indentln's output ends with a newline fails: the output
is empty. -/
theorem c8_counterexample :
    indentF (fun _ => []) (fun _ => []) exEmptyDoc 0 = some []
    ∧ indentlnF (fun _ => []) (fun _ => []) exEmptyDoc 0 = some []
    ∧ ([] : List Char).getLast? ≠ some '\n' := by
  refine ⟨?_, ?_, by simp⟩ <;>
    simp [indentF, indentlnF, indentHelperF, indentNode, indentForest, exEmptyDoc]

/-- C8 (amended): when rendering succeeds, `Indent` writes exactly the bytes
the recursion produced, and `Indentln` writes those bytes followed by exactly
one newline — unless the stream is empty or its last byte is already a
newline, in which case nothing is appended.  Hence `Indentln`'s output, when
non-empty, ends with a newline. -/
theorem c8_amended (render : PTree → List Char) (escape : String → List Char)
    (t : PTree) (level : Nat) (out : List Char)
    (h : indentF render escape t level = some out) :
    (∃ st, indentNode render escape t level ⟨[], true⟩ = some st ∧ st.out = out)
    ∧ indentlnF render escape t level =
        some (if out = [] ∨ out.getLast? = some '\n' then out else out ++ ['\n'])
    ∧ (out ≠ [] → ∃ res, indentlnF render escape t level = some res
        ∧ res.getLast? = some '\n') := by
  unfold indentF indentHelperF at h
  cases hN : indentNode render escape t level ⟨[], true⟩ with
  | none => rw [hN] at h; cases h
  | some st =>
    rw [hN] at h
    simp only [Bool.not_false, Bool.true_or, if_true, Option.some.injEq] at h
    have hb := bolOk_indentNode render escape t level ⟨[], true⟩ st bolOk_init hN
    unfold indentlnF indentHelperF
    rw [hN]
    simp only [Bool.not_true, Bool.false_or]
    refine ⟨⟨st, rfl, h⟩, ?_, ?_⟩
    · by_cases hbol : st.bol = true
      · rw [if_pos hbol, if_pos (h ▸ hb.mp hbol), h]
      · have hcond : ¬(out = [] ∨ out.getLast? = some '\n') := by
          intro hcon
          exact hbol (hb.mpr (h ▸ hcon))
        rw [if_neg (by simpa using hbol), if_neg hcond, h]
    · intro hne
      by_cases hbol : st.bol = true
      · refine ⟨out, by rw [if_pos hbol, h], ?_⟩
        rcases h ▸ hb.mp hbol with hnil | hlast
        · exact absurd hnil hne
        · exact hlast
      · refine ⟨out ++ ['\n'], by rw [if_neg (by simpa using hbol), h], ?_⟩
        rw [List.getLast?_append]
        simp

/-- C8 amended, witness: rendering a lone Text node whose external rendering
is `"x"`; `Indentln` appends the missing newline. -/
theorem c8_amended_witness :
    indentlnF (fun n => n.fields.data.data) (fun s => s.data) exText 0 =
      some (if ("x".data = [] ∨ "x".data.getLast? = some '\n')
            then "x".data else "x".data ++ ['\n']) :=
  (c8_amended (fun n => n.fields.data.data) (fun s => s.data) exText 0 "x".data
    (by simp [indentF, indentHelperF, indentNode, exText, bwWrite, PTree.fields])).2.1

/-! The heap model, used for `Prune` (htree.go).  An `html.Node` is a record
with five pointer fields; pointers are `Option Nat` addresses into a heap.
`Prune` is driven by an address skeleton (`ATree`) that the well-formedness
predicate `wf` ties to the heap's actual `FirstChild`/`NextSibling` chains,
exactly the pointers the Go code follows. -/

/-- A full `html.Node` record: scalar fields plus the five pointer fields. -/
structure NodeRec where
  type : NodeType
  dataAtom : Atom
  data : String
  nspace : String
  attr : List Attribute
  parent : Option Nat
  firstChild : Option Nat
  lastChild : Option Nat
  prevSibling : Option Nat
  nextSibling : Option Nat
deriving DecidableEq, Inhabited

/-- The scalar fields of a node record. -/
def fieldsOf (r : NodeRec) : Fields :=
  ⟨r.type, r.dataAtom, r.data, r.nspace, r.attr⟩

/-- A heap of node records with a bump allocator. -/
structure Heap where
  mem : Nat → Option NodeRec
  next : Nat

/-- Overwrite the record at address `a`. -/
def Heap.set (h : Heap) (a : Nat) (r : NodeRec) : Heap :=
  ⟨fun b => if b = a then some r else h.mem b, h.next⟩

/-- Allocate a fresh record, returning its address. -/
def Heap.alloc (h : Heap) (r : NodeRec) : Nat × Heap :=
  (h.next, ⟨fun b => if b = h.next then some r else h.mem b, h.next + 1⟩)

/-- A heap is `ok` when no record lives at or beyond the allocation mark. -/
def Heap.ok (h : Heap) : Prop :=
  ∀ a, h.next ≤ a → h.mem a = none

mutual
/-- An address skeleton of a tree living in the heap. -/
inductive ATree where
  | mk : Nat → AForest → ATree

/-- An address skeleton of a sibling chain. -/
inductive AForest where
  | nil : AForest
  | cons : ATree → AForest → AForest
end

/-- The root address of a skeleton. -/
def ATree.addr : ATree → Nat
  | .mk a _ => a

mutual
/-- The skeleton matches the heap: the record exists and its `firstChild` /
`nextSibling` chain runs through exactly the skeleton's children — these are
the pointers the `Prune` loops follow. -/
def wf (h : Heap) : ATree → Bool
  | .mk a cs =>
    match h.mem a with
    | none => false
    | some r => wfChain h r.firstChild cs

/-- Chain well-formedness: `cur` points at the first skeleton entry, each
entry's `nextSibling` at the next, the final one at `none`. -/
def wfChain (h : Heap) : Option Nat → AForest → Bool
  | cur, .nil => cur == none
  | cur, .cons t ts =>
    cur == some t.addr && wf h t
      && wfChain h ((h.mem t.addr).getD default).nextSibling ts
end

mutual
/-- The pure tree a heap tree denotes (fields read through the skeleton). -/
def treeOf (h : Heap) : ATree → PTree
  | .mk a cs => .mk (fieldsOf ((h.mem a).getD default)) (treesOf h cs)

/-- The pure forest a heap chain denotes. -/
def treesOf (h : Heap) : AForest → PForest
  | .nil => .nil
  | .cons t ts => .cons (treeOf h t) (treesOf h ts)
end

mutual
/-- All skeleton addresses lie below `n`. -/
def treeBelow : ATree → Nat → Bool
  | .mk a cs, n => decide (a < n) && forestBelow cs n

/-- All addresses of a chain skeleton lie below `n`. -/
def forestBelow : AForest → Nat → Bool
  | .nil, _ => true
  | .cons t ts, n => treeBelow t n && forestBelow ts n
end

/-- The relink loop of `Prune`: walk the surviving children, giving the
first a `nil` `PrevSibling`, the last a `nil` `NextSibling`, and linking each
to its immediate neighbours in the filtered list. -/
def relink (h : Heap) (prev : Option Nat) : List Nat → Heap
  | [] => h
  | a :: rest =>
    let r := (h.mem a).getD default
    relink (h.set a { r with prevSibling := prev, nextSibling := rest.head? })
      (some a) rest

mutual
/-- Embedding of `Prune` (htree.go): if the predicate holds at the node,
return `nil`; otherwise recursively prune the children keeping the
survivors in order, relink their sibling pointers from scratch, and allocate
a shallow copy of the node whose `FirstChild`/`LastChild` are the endpoints
of the filtered list — `nil` when no child survives, since `[].head?` and
`[].getLast?` are `none`. -/
def prune (pred : NodeRec → Bool) : ATree → Heap → Option Nat × Heap
  | .mk a cs, h =>
    let r := (h.mem a).getD default
    if pred r then (none, h)
    else
      let res := pruneList pred cs h
      let h2 := relink res.2 none res.1
      let al := h2.alloc { r with firstChild := res.1.head?, lastChild := res.1.getLast? }
      (some al.1, al.2)

/-- The child loop of `Prune`: prune each child, dropping the ones that
return `nil` and keeping the rest in original order. -/
def pruneList (pred : NodeRec → Bool) : AForest → Heap → List Nat × Heap
  | .nil, h => ([], h)
  | .cons t ts, h =>
    match prune pred t h with
    | (none, h1) => pruneList pred ts h1
    | (some a, h1) =>
      let res := pruneList pred ts h1
      (a :: res.1, res.2)
end

mutual
/-- The address `a` of heap `h` represents the pure tree, with every strictly
internal address in `[lo, a)`: the record exists, its scalar fields match,
and its child chain is a doubly linked list running through representations
of the pure children, first child's `prevSibling` `none`, `lastChild`
pointing at the final child. -/
def rep (h : Heap) (lo a : Nat) : PTree → Bool
  | .mk f cs =>
    match h.mem a with
    | none => false
    | some r =>
      decide (lo ≤ a) && (fieldsOf r == f)
        && repChain h lo a r.firstChild none r.lastChild cs

/-- `repChain h lo hi cur prev last cs`: starting at `cur`, whose
`prevSibling` must be `prev`, the doubly linked chain represents `cs` within
the address region `[lo, hi)`, and `last` is the final address (or `prev`
when the chain is empty). -/
def repChain (h : Heap) (lo hi : Nat) :
    Option Nat → Option Nat → Option Nat → PForest → Bool
  | cur, prev, last, .nil => cur == none && last == prev
  | cur, prev, last, .cons pt pts =>
    match cur with
    | none => false
    | some b =>
      match h.mem b with
      | none => false
      | some rb =>
        decide (lo ≤ b) && decide (b < hi) && (rb.prevSibling == prev)
          && rep h lo b pt && repChain h lo hi rb.nextSibling (some b) last pts
end

/-- The list of addresses produced by the `Prune` child loop represents the
pure pruned forest, with strictly increasing, region-separated footprints. -/
def goodList (h : Heap) : Nat → List Nat → PForest → Prop
  | _, [], .nil => True
  | lo, a :: as, .cons pt pts =>
    lo ≤ a ∧ rep h lo a pt = true ∧ goodList h (a + 1) as pts
  | _, [], .cons _ _ => False
  | _, _ :: _, .nil => False

/-- The last element of a list of addresses, or `prev` when it is empty. -/
def lastO (prev : Option Nat) : List Nat → Option Nat
  | [] => prev
  | a :: rest => (a :: rest).getLast?

theorem lastO_none (as : List Nat) : lastO none as = as.getLast? := by
  cases as <;> rfl

theorem lastO_cons (prev : Option Nat) (a : Nat) (rest : List Nat) :
    lastO prev (a :: rest) = lastO (some a) rest := by
  cases rest with
  | nil => rfl
  | cons b r => simp [lastO, List.getLast?_cons_cons]

theorem Heap.set_next (h : Heap) (a : Nat) (r : NodeRec) : (h.set a r).next = h.next := rfl

theorem Heap.set_mem_self (h : Heap) (a : Nat) (r : NodeRec) :
    (h.set a r).mem a = some r := by
  simp [Heap.set]

theorem Heap.set_mem_ne (h : Heap) (a b : Nat) (r : NodeRec) (hne : b ≠ a) :
    (h.set a r).mem b = h.mem b := by
  simp [Heap.set, hne]

theorem Heap.alloc_fst (h : Heap) (r : NodeRec) : (h.alloc r).1 = h.next := rfl

theorem Heap.alloc_next (h : Heap) (r : NodeRec) : (h.alloc r).2.next = h.next + 1 := rfl

theorem Heap.alloc_mem_self (h : Heap) (r : NodeRec) :
    (h.alloc r).2.mem h.next = some r := by
  simp [Heap.alloc]

theorem Heap.alloc_mem_ne (h : Heap) (r : NodeRec) (b : Nat) (hne : b ≠ h.next) :
    (h.alloc r).2.mem b = h.mem b := by
  simp [Heap.alloc, hne]

/-! Region monotonicity and heap-agreement stability of `rep`. -/

mutual
theorem rep_mono (h : Heap) (lo2 lo a : Nat) (pt : PTree) (hle : lo2 ≤ lo)
    (hr : rep h lo a pt = true) : rep h lo2 a pt = true := by
  cases pt with
  | mk f cs =>
    cases hm : h.mem a with
    | none => simp [rep, hm] at hr
    | some r =>
      simp only [rep, hm, Bool.and_eq_true, decide_eq_true_eq] at hr ⊢
      exact ⟨⟨le_trans hle hr.1.1, hr.1.2⟩,
        repChain_mono h lo2 lo a r.firstChild none r.lastChild cs hle hr.2⟩

theorem repChain_mono (h : Heap) (lo2 lo hi : Nat) (cur prev last : Option Nat)
    (pts : PForest) (hle : lo2 ≤ lo)
    (hc : repChain h lo hi cur prev last pts = true) :
    repChain h lo2 hi cur prev last pts = true := by
  cases pts with
  | nil => simpa [repChain] using hc
  | cons pt pts2 =>
    cases cur with
    | none => simp [repChain] at hc
    | some b =>
      cases hm : h.mem b with
      | none => simp [repChain, hm] at hc
      | some rb =>
        simp only [repChain, hm, Bool.and_eq_true, decide_eq_true_eq] at hc ⊢
        exact ⟨⟨⟨⟨le_trans hle hc.1.1.1.1, hc.1.1.1.2⟩, hc.1.1.2⟩,
          rep_mono h lo2 lo b pt hle hc.1.2⟩,
          repChain_mono h lo2 lo hi rb.nextSibling (some b) last pts2 hle hc.2⟩
end

mutual
theorem rep_congr (h h2 : Heap) (lo a : Nat) (pt : PTree)
    (hag : ∀ x, lo ≤ x → x ≤ a → h2.mem x = h.mem x)
    (hr : rep h lo a pt = true) : rep h2 lo a pt = true := by
  cases pt with
  | mk f cs =>
    cases hm : h.mem a with
    | none => simp [rep, hm] at hr
    | some r =>
      simp only [rep, hm, Bool.and_eq_true, decide_eq_true_eq] at hr
      have hma : h2.mem a = some r := by rw [hag a hr.1.1 (le_refl a), hm]
      simp only [rep, hma, Bool.and_eq_true, decide_eq_true_eq]
      exact ⟨⟨hr.1.1, hr.1.2⟩,
        repChain_congr h h2 lo a r.firstChild none r.lastChild cs
          (fun x hx1 hx2 => hag x hx1 (le_of_lt hx2)) hr.2⟩

theorem repChain_congr (h h2 : Heap) (lo hi : Nat) (cur prev last : Option Nat)
    (pts : PForest)
    (hag : ∀ x, lo ≤ x → x < hi → h2.mem x = h.mem x)
    (hc : repChain h lo hi cur prev last pts = true) :
    repChain h2 lo hi cur prev last pts = true := by
  cases pts with
  | nil => simpa [repChain] using hc
  | cons pt pts2 =>
    cases cur with
    | none => simp [repChain] at hc
    | some b =>
      cases hm : h.mem b with
      | none => simp [repChain, hm] at hc
      | some rb =>
        simp only [repChain, hm, Bool.and_eq_true, decide_eq_true_eq] at hc
        have hmb : h2.mem b = some rb := by
          rw [hag b hc.1.1.1.1 hc.1.1.1.2, hm]
        simp only [repChain, hmb, Bool.and_eq_true, decide_eq_true_eq]
        refine ⟨⟨⟨⟨hc.1.1.1.1, hc.1.1.1.2⟩, hc.1.1.2⟩, ?_⟩, ?_⟩
        · exact rep_congr h h2 lo b pt
            (fun x hx1 hx2 => hag x hx1 (lt_of_le_of_lt hx2 hc.1.1.1.2)) hc.1.2
        · exact repChain_congr h h2 lo hi rb.nextSibling (some b) last pts2 hag hc.2
end

theorem rep_mem {h : Heap} {lo a : Nat} {pt : PTree} (hr : rep h lo a pt = true) :
    ∃ r, h.mem a = some r ∧ lo ≤ a := by
  cases pt with
  | mk f cs =>
    cases hm : h.mem a with
    | none => simp [rep, hm] at hr
    | some r =>
      simp only [rep, hm, Bool.and_eq_true, decide_eq_true_eq] at hr
      exact ⟨r, rfl, hr.1.1⟩

/-- Overwriting only the root's sibling pointers (below-root heap unchanged)
preserves representation: `rep` does not constrain the root's own
`prevSibling`/`nextSibling`. -/
theorem rep_update_root (h h2 : Heap) (lo a : Nat) (pt : PTree) (p1 p2 : Option Nat)
    (hag : ∀ x, lo ≤ x → x < a → h2.mem x = h.mem x)
    (hset : ∀ r, h.mem a = some r →
      h2.mem a = some { r with prevSibling := p1, nextSibling := p2 })
    (hr : rep h lo a pt = true) : rep h2 lo a pt = true := by
  cases pt with
  | mk f cs =>
    cases hm : h.mem a with
    | none => simp [rep, hm] at hr
    | some r =>
      simp only [rep, hm, Bool.and_eq_true, decide_eq_true_eq] at hr
      simp only [rep, hset r hm, Bool.and_eq_true, decide_eq_true_eq]
      refine ⟨⟨hr.1.1, ?_⟩, ?_⟩
      · simpa [fieldsOf] using hr.1.2
      · exact repChain_congr h h2 lo a r.firstChild none r.lastChild cs hag hr.2

theorem goodList_lb (h : Heap) (as : List Nat) (lo : Nat) (pts : PForest)
    (hg : goodList h lo as pts) : ∀ a ∈ as, lo ≤ a := by
  induction as generalizing lo pts with
  | nil => intro a ha; cases ha
  | cons a rest ih =>
    cases pts with
    | nil => simp [goodList] at hg
    | cons pt pts2 =>
      simp only [goodList] at hg
      intro x hx
      rcases List.mem_cons.mp hx with rfl | hx2
      · exact hg.1
      · have := ih (a + 1) pts2 hg.2.2 x hx2
        omega

theorem goodList_congr (h h2 : Heap) (as : List Nat) (lo : Nat) (pts : PForest)
    (hag : ∀ x, lo ≤ x → h2.mem x = h.mem x)
    (hg : goodList h lo as pts) : goodList h2 lo as pts := by
  induction as generalizing lo pts with
  | nil =>
    cases pts with
    | nil => simp [goodList]
    | cons pt pts2 => simp [goodList] at hg
  | cons a rest ih =>
    cases pts with
    | nil => simp [goodList] at hg
    | cons pt pts2 =>
      simp only [goodList] at hg ⊢
      refine ⟨hg.1, ?_, ?_⟩
      · exact rep_congr h h2 lo a pt (fun x hx _ => hag x hx) hg.2.1
      · exact ih (a + 1) pts2 (fun x hx => hag x (by omega)) hg.2.2

theorem relink_next (h : Heap) (prev : Option Nat) (as : List Nat) :
    (relink h prev as).next = h.next := by
  induction as generalizing h prev with
  | nil => rfl
  | cons a rest ih =>
    simp only [relink]
    rw [ih]
    rfl

theorem relink_mem_notin (h : Heap) (prev : Option Nat) (as : List Nat) (x : Nat)
    (hx : ¬ x ∈ as) : (relink h prev as).mem x = h.mem x := by
  induction as generalizing h prev with
  | nil => rfl
  | cons a rest ih =>
    simp only [relink]
    rw [ih _ _ (fun hc => hx (List.mem_cons_of_mem a hc))]
    exact Heap.set_mem_ne _ _ _ _ (fun hc => hx (hc ▸ List.mem_cons_self a rest))

/-- After the relink loop, the surviving children form exactly the doubly
linked chain `repChain` demands. -/
theorem relink_spec (as : List Nat) (pts : PForest) (h : Heap) (lo hi : Nat)
    (prev : Option Nat) (hg : goodList h lo as pts) (hhi : ∀ a ∈ as, a < hi) :
    repChain (relink h prev as) lo hi as.head? prev (lastO prev as) pts = true := by
  induction as generalizing pts h lo prev with
  | nil =>
    cases pts with
    | nil => simp [relink, repChain, lastO]
    | cons pt pts2 => simp [goodList] at hg
  | cons a rest ih =>
    cases pts with
    | nil => simp [goodList] at hg
    | cons pt pts2 =>
      simp only [goodList] at hg
      obtain ⟨hla, hrep, hrest⟩ := hg
      obtain ⟨ra, hma, _⟩ := rep_mem hrep
      have hnotin : ¬ a ∈ rest := by
        intro hc
        have := goodList_lb h rest (a + 1) pts2 hrest a hc
        omega
      have hstep : relink h prev (a :: rest)
          = relink (h.set a { ra with prevSibling := prev, nextSibling := rest.head? })
              (some a) rest := by
        simp only [relink, hma, Option.getD_some]
      rw [hstep]
      have hmem_a :
          (relink (h.set a { ra with prevSibling := prev, nextSibling := rest.head? })
            (some a) rest).mem a
          = some { ra with prevSibling := prev, nextSibling := rest.head? } := by
        rw [relink_mem_notin _ _ _ _ hnotin, Heap.set_mem_self]
      have hrep2 : rep (h.set a { ra with prevSibling := prev, nextSibling := rest.head? })
          lo a pt = true := by
        apply rep_update_root h _ lo a pt prev rest.head? ?_ ?_ hrep
        · intro x _ hx2
          exact Heap.set_mem_ne _ _ _ _ (by omega)
        · intro r hr
          rw [Heap.set_mem_self]
          rw [hma] at hr
          cases hr
          rfl
      have hrep3 : rep (relink (h.set a { ra with prevSibling := prev, nextSibling := rest.head? })
          (some a) rest) lo a pt = true := by
        apply rep_congr _ _ lo a pt ?_ hrep2
        intro x _ hx2
        apply relink_mem_notin
        intro hc
        have := goodList_lb h rest (a + 1) pts2 hrest x hc
        omega
      have hrest2 : goodList (h.set a { ra with prevSibling := prev, nextSibling := rest.head? })
          (a + 1) rest pts2 :=
        goodList_congr h _ rest (a + 1) pts2
          (fun x hx => Heap.set_mem_ne _ _ _ _ (by omega)) hrest
      have htail := ih pts2 (h.set a { ra with prevSibling := prev, nextSibling := rest.head? })
        (a + 1) (some a) hrest2 (fun b hb => hhi b (List.mem_cons_of_mem a hb))
      have htail2 := repChain_mono _ lo (a + 1) hi rest.head? (some a)
        (lastO (some a) rest) pts2 (by omega) htail
      simp only [List.head?_cons, repChain, hmem_a, Bool.and_eq_true, decide_eq_true_eq]
      refine ⟨⟨⟨⟨hla, hhi a (List.mem_cons_self a rest)⟩, by simp⟩, hrep3⟩, ?_⟩
      rw [lastO_cons]
      exact htail2

/-! Frame properties of `prune`: the allocation mark only grows, addresses
below the initial mark keep their contents, and every returned address is
freshly allocated. -/

mutual
theorem prune_frame (pred : NodeRec → Bool) (t : ATree) (h : Heap) :
    h.next ≤ (prune pred t h).2.next
    ∧ (∀ x, x < h.next → (prune pred t h).2.mem x = h.mem x)
    ∧ (∀ a2, (prune pred t h).1 = some a2 →
        h.next ≤ a2 ∧ a2 < (prune pred t h).2.next) := by
  cases t with
  | mk a cs =>
    cases hpr : pred ((h.mem a).getD default) with
    | true =>
      have heq : prune pred (ATree.mk a cs) h = (none, h) := by
        simp only [prune, hpr, if_true]
      rw [heq]
      exact ⟨le_refl _, fun x _ => rfl, fun a2 hcon => Option.noConfusion hcon⟩
    | false =>
      have hl := pruneList_frame pred cs h
      rcases hres : pruneList pred cs h with ⟨children, h1⟩
      rw [hres] at hl
      dsimp only at hl
      simp only [prune, hpr, Bool.false_eq_true, if_false, hres]
      have hx_notin : ∀ x, x < h.next → ¬ x ∈ children := by
        intro x hx hc
        have := hl.2.2 x hc
        omega
      refine ⟨?_, ?_, ?_⟩
      · rw [Heap.alloc_next, relink_next]
        have := hl.1
        omega
      · intro x hx
        rw [Heap.alloc_mem_ne _ _ _ (by rw [relink_next]; have := hl.1; omega),
          relink_mem_notin _ _ _ _ (hx_notin x hx), hl.2.1 x hx]
      · intro a2 ha2
        have ha2e : a2 = h1.next := by
          rw [← Option.some_inj.mp ha2, Heap.alloc_fst, relink_next]
        rw [Heap.alloc_next, relink_next]
        subst ha2e
        have := hl.1
        omega

theorem pruneList_frame (pred : NodeRec → Bool) (ts : AForest) (h : Heap) :
    h.next ≤ (pruneList pred ts h).2.next
    ∧ (∀ x, x < h.next → (pruneList pred ts h).2.mem x = h.mem x)
    ∧ (∀ a, a ∈ (pruneList pred ts h).1 →
        h.next ≤ a ∧ a < (pruneList pred ts h).2.next) := by
  cases ts with
  | nil =>
    have heq : pruneList pred AForest.nil h = ([], h) := by
      simp only [pruneList]
    rw [heq]
    exact ⟨le_refl _, fun x _ => rfl, fun a ha => absurd ha (List.not_mem_nil a)⟩
  | cons t ts2 =>
    have ht := prune_frame pred t h
    rcases hp : prune pred t h with ⟨r1, h1⟩
    rw [hp] at ht
    dsimp only at ht
    cases r1 with
    | none =>
      have hts := pruneList_frame pred ts2 h1
      simp only [pruneList, hp]
      refine ⟨le_trans ht.1 hts.1, ?_, ?_⟩
      · intro x hx
        rw [hts.2.1 x (lt_of_lt_of_le hx ht.1), ht.2.1 x hx]
      · intro a ha
        have := hts.2.2 a ha
        exact ⟨le_trans ht.1 this.1, this.2⟩
    | some a2 =>
      have hts := pruneList_frame pred ts2 h1
      rcases hq : pruneList pred ts2 h1 with ⟨rest, h2⟩
      rw [hq] at hts
      dsimp only at hts
      simp only [pruneList, hp, hq]
      have hfresh := ht.2.2 a2 rfl
      refine ⟨le_trans ht.1 hts.1, ?_, ?_⟩
      · intro x hx
        rw [hts.2.1 x (lt_of_lt_of_le hx ht.1), ht.2.1 x hx]
      · intro b hb
        rcases List.mem_cons.mp hb with rfl | hb2
        · exact ⟨hfresh.1, lt_of_lt_of_le hfresh.2 hts.1⟩
        · have := hts.2.2 b hb2
          exact ⟨le_trans ht.1 this.1, this.2⟩
end

mutual
theorem treeBelow_mono (t : ATree) (n m : Nat) (hnm : n ≤ m)
    (hb : treeBelow t n = true) : treeBelow t m = true := by
  cases t with
  | mk a cs =>
    simp only [treeBelow, Bool.and_eq_true, decide_eq_true_eq] at hb ⊢
    exact ⟨by omega, forestBelow_mono cs n m hnm hb.2⟩

theorem forestBelow_mono (ts : AForest) (n m : Nat) (hnm : n ≤ m)
    (hb : forestBelow ts n = true) : forestBelow ts m = true := by
  cases ts with
  | nil => rfl
  | cons t ts2 =>
    simp only [forestBelow, Bool.and_eq_true] at hb ⊢
    exact ⟨treeBelow_mono t n m hnm hb.1, forestBelow_mono ts2 n m hnm hb.2⟩
end

mutual
theorem treeOf_congr (h h2 : Heap) (t : ATree) (n : Nat)
    (hb : treeBelow t n = true) (hag : ∀ x, x < n → h2.mem x = h.mem x) :
    treeOf h2 t = treeOf h t := by
  cases t with
  | mk a cs =>
    simp only [treeBelow, Bool.and_eq_true, decide_eq_true_eq] at hb
    simp only [treeOf, hag a hb.1, treesOf_congr h h2 cs n hb.2 hag]

theorem treesOf_congr (h h2 : Heap) (ts : AForest) (n : Nat)
    (hb : forestBelow ts n = true) (hag : ∀ x, x < n → h2.mem x = h.mem x) :
    treesOf h2 ts = treesOf h ts := by
  cases ts with
  | nil => rfl
  | cons t ts2 =>
    simp only [forestBelow, Bool.and_eq_true] at hb
    simp only [treesOf, treeOf_congr h h2 t n hb.1 hag,
      treesOf_congr h h2 ts2 n hb.2 hag]
end

mutual
theorem wf_below (h : Heap) (t : ATree) (hok : Heap.ok h)
    (hwf : wf h t = true) : treeBelow t h.next = true := by
  cases t with
  | mk a cs =>
    cases hm : h.mem a with
    | none => simp [wf, hm] at hwf
    | some r =>
      simp only [wf, hm] at hwf
      simp only [treeBelow, Bool.and_eq_true, decide_eq_true_eq]
      constructor
      · by_contra hcon
        rw [hok a (Nat.le_of_not_lt hcon)] at hm
        cases hm
      · exact wfChain_below h r.firstChild cs hok hwf

theorem wfChain_below (h : Heap) (cur : Option Nat) (ts : AForest) (hok : Heap.ok h)
    (hwf : wfChain h cur ts = true) : forestBelow ts h.next = true := by
  cases ts with
  | nil => rfl
  | cons t ts2 =>
    simp only [wfChain, Bool.and_eq_true] at hwf
    simp only [forestBelow, Bool.and_eq_true]
    exact ⟨wf_below h t hok hwf.1.2,
      wfChain_below h _ ts2 hok hwf.2⟩
end

/-! Main correctness of `prune` against the pure `pruneT`, by mutual
induction on the skeleton. -/

mutual
theorem prune_main (pred : NodeRec → Bool) (predF : Fields → Bool)
    (hp : ∀ r, pred r = predF (fieldsOf r)) (t : ATree) (h : Heap)
    (hb : treeBelow t h.next = true) :
    (pruneT predF (treeOf h t) = none →
      (prune pred t h).1 = none ∧ (prune pred t h).2 = h)
    ∧ (∀ pt2, pruneT predF (treeOf h t) = some pt2 →
        ∃ a2, (prune pred t h).1 = some a2 ∧ a2 + 1 = (prune pred t h).2.next
          ∧ h.next ≤ a2 ∧ rep (prune pred t h).2 h.next a2 pt2 = true) := by
  cases t with
  | mk a cs =>
    have htree : treeOf h (ATree.mk a cs)
        = PTree.mk (fieldsOf ((h.mem a).getD default)) (treesOf h cs) := by
      simp only [treeOf]
    cases hpf : predF (fieldsOf ((h.mem a).getD default)) with
    | true =>
      have hpr : pred ((h.mem a).getD default) = true := by rw [hp]; exact hpf
      have heq : prune pred (ATree.mk a cs) h = (none, h) := by
        simp only [prune, hpr, if_true]
      have hT : pruneT predF (treeOf h (ATree.mk a cs)) = none := by
        rw [htree]
        simp only [pruneT, hpf, if_true]
      rw [heq]
      constructor
      · intro _
        exact ⟨rfl, rfl⟩
      · intro pt2 hcon
        rw [hT] at hcon
        cases hcon
    | false =>
      have hpr : pred ((h.mem a).getD default) = false := by rw [hp]; exact hpf
      have hT : pruneT predF (treeOf h (ATree.mk a cs))
          = some (PTree.mk (fieldsOf ((h.mem a).getD default))
              (pruneF predF (treesOf h cs))) := by
        rw [htree]
        simp only [pruneT, hpf, Bool.false_eq_true, if_false]
      have hbcs : forestBelow cs h.next = true := by
        simp only [treeBelow, Bool.and_eq_true] at hb
        exact hb.2
      have hgl := pruneList_main pred predF hp cs h hbcs
      have hfr := pruneList_frame pred cs h
      rcases hres : pruneList pred cs h with ⟨children, h1⟩
      rw [hres] at hgl hfr
      dsimp only at hgl hfr
      have h2next : (relink h1 none children).next = h1.next := relink_next _ _ _
      have heq1 : (prune pred (ATree.mk a cs) h).1 = some h1.next := by
        simp only [prune, hpr, Bool.false_eq_true, if_false, hres]
        rw [Heap.alloc_fst, relink_next]
      have heq2 : (prune pred (ATree.mk a cs) h).2
          = ((relink h1 none children).alloc
              { (h.mem a).getD default with
                firstChild := children.head?, lastChild := children.getLast? }).2 := by
        simp only [prune, hpr, Bool.false_eq_true, if_false, hres]
      constructor
      · intro hcon
        rw [hT] at hcon
        cases hcon
      · intro pt2 hpt2
        rw [hT] at hpt2
        have hpt2e := Option.some_inj.mp hpt2
        subst hpt2e
        refine ⟨h1.next, heq1, ?_, hfr.1, ?_⟩
        · rw [heq2, Heap.alloc_next, relink_next]
        · rw [heq2]
          have hchain := relink_spec children (pruneF predF (treesOf h cs)) h1
            h.next h1.next none hgl (fun b hbmem => (hfr.2.2 b hbmem).2)
          have hchain2 : repChain ((relink h1 none children).alloc
                { (h.mem a).getD default with
                  firstChild := children.head?, lastChild := children.getLast? }).2
                h.next h1.next children.head? none (lastO none children)
                (pruneF predF (treesOf h cs)) = true := by
            apply repChain_congr _ _ _ _ _ _ _ _ ?_ hchain
            intro x _ hx2
            exact Heap.alloc_mem_ne _ _ _ (by rw [relink_next]; omega)
          have hmemroot : (((relink h1 none children).alloc
                { (h.mem a).getD default with
                  firstChild := children.head?, lastChild := children.getLast? }).2).mem
                h1.next
              = some { (h.mem a).getD default with
                  firstChild := children.head?, lastChild := children.getLast? } := by
            rw [← h2next]
            exact Heap.alloc_mem_self _ _
          simp only [rep, hmemroot, Bool.and_eq_true, decide_eq_true_eq]
          refine ⟨⟨hfr.1, ?_⟩, ?_⟩
          · simp [fieldsOf]
          · rw [lastO_none children] at hchain2
            exact hchain2

theorem pruneList_main (pred : NodeRec → Bool) (predF : Fields → Bool)
    (hp : ∀ r, pred r = predF (fieldsOf r)) (ts : AForest) (h : Heap)
    (hb : forestBelow ts h.next = true) :
    goodList (pruneList pred ts h).2 h.next (pruneList pred ts h).1
      (pruneF predF (treesOf h ts)) := by
  cases ts with
  | nil =>
    have heq : pruneList pred AForest.nil h = ([], h) := by
      simp only [pruneList]
    rw [heq]
    simp only [treesOf, pruneF, goodList]
  | cons t ts2 =>
    simp only [forestBelow, Bool.and_eq_true] at hb
    have hmt := prune_main pred predF hp t h hb.1
    have hft := prune_frame pred t h
    rcases hpt : prune pred t h with ⟨r1, h1⟩
    rw [hpt] at hmt hft
    dsimp only at hmt hft
    have htrees : treesOf h (AForest.cons t ts2)
        = PForest.cons (treeOf h t) (treesOf h ts2) := by
      simp only [treesOf]
    cases hT : pruneT predF (treeOf h t) with
    | none =>
      obtain ⟨hr1, hh1⟩ := hmt.1 hT
      subst hr1
      have heq : pruneList pred (AForest.cons t ts2) h = pruneList pred ts2 h := by
        simp only [pruneList, hpt, hh1]
      rw [heq, htrees]
      simp only [pruneF, hT]
      exact pruneList_main pred predF hp ts2 h hb.2
    | some pt2 =>
      obtain ⟨a2, ha2, ha2n, ha2lo, hrep⟩ := hmt.2 pt2 hT
      subst ha2
      have hmts := pruneList_main pred predF hp ts2 h1
        (forestBelow_mono ts2 h.next h1.next hft.1 hb.2)
      have hfts := pruneList_frame pred ts2 h1
      rcases hq : pruneList pred ts2 h1 with ⟨rest, h2⟩
      rw [hq] at hmts hfts
      dsimp only at hmts hfts
      have heq : pruneList pred (AForest.cons t ts2) h = (a2 :: rest, h2) := by
        simp only [pruneList, hpt, hq]
      rw [heq, htrees]
      dsimp only
      simp only [pruneF, hT]
      have htrees2 : treesOf h1 ts2 = treesOf h ts2 :=
        treesOf_congr h h1 ts2 h.next hb.2 (fun x hx => hft.2.1 x hx)
      rw [← htrees2]
      simp only [goodList]
      refine ⟨ha2lo, ?_, ?_⟩
      · apply rep_congr h1 h2 h.next a2 pt2 ?_ hrep
        intro x _ hx2
        exact hfts.2.1 x (by omega)
      · rw [ha2n]
        exact hmts
end

/-- C5: `Prune` returns `nil` exactly when the predicate holds at the node;
otherwise it returns a fresh node that represents (`rep`) the pure pruned
tree: a shallow copy of the node's fields whose `firstChild`/`lastChild` are
the endpoints of the filtered child list (`none` when empty), with the
surviving recursively pruned children in original order, relinked from
scratch — first survivor's `prevSibling` `none`, last survivor's
`nextSibling` `none`, the others linked to their immediate neighbours. -/
theorem c5_prune (pred : NodeRec → Bool) (predF : Fields → Bool)
    (hp : ∀ r, pred r = predF (fieldsOf r)) (h : Heap) (t : ATree)
    (hwf : wf h t = true) (hok : Heap.ok h) :
    ((prune pred t h).1 = none ↔ pred ((h.mem t.addr).getD default) = true)
    ∧ (∀ pt2, pruneT predF (treeOf h t) = some pt2 →
        ∃ a2, (prune pred t h).1 = some a2
          ∧ rep (prune pred t h).2 h.next a2 pt2 = true) := by
  have hb := wf_below h t hok hwf
  have hm := prune_main pred predF hp t h hb
  constructor
  · cases t with
    | mk a cs =>
      cases hpf : predF (fieldsOf ((h.mem a).getD default)) with
      | true =>
        have hT : pruneT predF (treeOf h (ATree.mk a cs)) = none := by
          simp only [treeOf, pruneT, hpf, if_true]
        constructor
        · intro _
          simp only [ATree.addr]
          rw [hp]
          exact hpf
        · intro _
          exact (hm.1 hT).1
      | false =>
        have hT : pruneT predF (treeOf h (ATree.mk a cs))
            = some (PTree.mk (fieldsOf ((h.mem a).getD default))
                (pruneF predF (treesOf h cs))) := by
          simp only [treeOf, pruneT, hpf, Bool.false_eq_true, if_false]
        obtain ⟨a2, ha2, _, _, _⟩ := hm.2 _ hT
        constructor
        · intro hcon
          rw [ha2] at hcon
          cases hcon
        · intro hcon
          simp only [ATree.addr] at hcon
          rw [hp, hpf] at hcon
          cases hcon
  · intro pt2 hpt2
    obtain ⟨a2, ha2, _, _, hrep⟩ := hm.2 pt2 hpt2
    exact ⟨a2, ha2, hrep⟩

/-- C6: `Prune` never mutates the input tree — every record allocated before
the call (in particular every node of the input tree) still holds exactly
its original value in the output heap; all writes go into freshly allocated
copies. -/
theorem c6_prune_frame (pred : NodeRec → Bool) (h : Heap) (t : ATree)
    (hok : Heap.ok h) (hwf : wf h t = true) :
    ∀ a r, h.mem a = some r → (prune pred t h).2.mem a = some r := by
  intro a r hm
  have ha : a < h.next := by
    by_contra hcon
    rw [hok a (Nat.le_of_not_lt hcon)] at hm
    cases hm
  rw [(prune_frame pred t h).2.1 a ha, hm]

/-- A Text node record with data `"x"`, child of the root at address 0. -/
def exChildRec : NodeRec :=
  ⟨NodeType.textNode, Atom.zeroAtom, "x", "", [], some 0, none, none, none, none⟩

/-- An Element node record whose only child lives at address 1. -/
def exRootRec : NodeRec :=
  ⟨NodeType.elementNode, Atom.div, "div", "", [], none, some 1, some 1, none, none⟩

/-- A two-node heap: the root at address 0, its Text child at address 1. -/
def exHeap : Heap :=
  ⟨fun b => if b = 0 then some exRootRec else if b = 1 then some exChildRec else none, 2⟩

/-- The skeleton of the two-node heap tree. -/
def exATree : ATree := .mk 0 (.cons (.mk 1 .nil) .nil)

/-- C5, witness: pruning the Text child out of the two-node tree yields a
fresh root representing the childless pruned tree. -/
theorem c5_prune_witness :
    ∃ a2, (prune (fun r => (fieldsOf r).type == NodeType.textNode) exATree exHeap).1
        = some a2
      ∧ rep (prune (fun r => (fieldsOf r).type == NodeType.textNode) exATree exHeap).2
          exHeap.next a2 (PTree.mk (fieldsOf exRootRec) PForest.nil) = true :=
  (c5_prune (fun r => (fieldsOf r).type == NodeType.textNode)
      (fun f => f.type == NodeType.textNode) (fun _ => rfl) exHeap exATree
      (by decide)
      (by
        intro a ha
        have hn : exHeap.next = 2 := rfl
        rw [hn] at ha
        have h0 : ¬ a = 0 := by omega
        have h1 : ¬ a = 1 := by omega
        simp [exHeap, h0, h1])).2
    (PTree.mk (fieldsOf exRootRec) PForest.nil) rfl

/-- C6, witness: after pruning the two-node tree, both original records are
unchanged in the heap. -/
theorem c6_prune_frame_witness :
    (prune (fun r => (fieldsOf r).type == NodeType.textNode) exATree exHeap).2.mem 0
      = some exRootRec
    ∧ (prune (fun r => (fieldsOf r).type == NodeType.textNode) exATree exHeap).2.mem 1
      = some exChildRec :=
  ⟨c6_prune_frame (fun r => (fieldsOf r).type == NodeType.textNode) exHeap exATree
      (by
        intro a ha
        have hn : exHeap.next = 2 := rfl
        rw [hn] at ha
        have h0 : ¬ a = 0 := by omega
        have h1 : ¬ a = 1 := by omega
        simp [exHeap, h0, h1])
      (by decide) 0 exRootRec rfl,
   c6_prune_frame (fun r => (fieldsOf r).type == NodeType.textNode) exHeap exATree
      (by
        intro a ha
        have hn : exHeap.next = 2 := rfl
        rw [hn] at ha
        have h0 : ¬ a = 0 := by omega
        have h1 : ¬ a = 1 := by omega
        simp [exHeap, h0, h1])
      (by decide) 1 exChildRec rfl⟩

end Htree
